import Mathlib

/-!
# Verification of the combinatorial-market engine

Shallow embedding of the market-optimization and noisy-elicitation core
(`market.py`, `market_noisy.py`, plus `compute_pricing` of
`single_minded_counterexamples.py`).

Modelling conventions:

* Goods are natural numbers (`market.py` represents goods as `int`).
* A bundle is a `Finset ℕ` (the code uses `frozenset[int]`, a canonical
  hashable set).
* A bidder in the code is hashed and compared **only by its integer id**
  (`Bidder.__eq__` / `Bidder.__hash__`), so a market is embedded as a list of
  bidder ids together with two id-indexed maps: the base bundles of each
  bidder (`get_base_bundles`) and its valuation (`value_query`).  Valuations
  are `ℚ`-valued: the Python floats in this code base are produced by exact
  arithmetic on the inputs, and the LP/ILP backend (CBC) solves
  rational-data programs exactly.
* Python `set` objects holding goods/bidders are embedded as lists; where a
  claim's meaning depends on set-ness (distinct elements) the theorems carry
  explicit `Nodup` hypotheses, matching the code's invariant that bidder ids
  are unique and goods form a set.
* Calls into the LP/ILP solver are embedded by their mathematical
  specification: the ILP of `welfare_max_program` is solved to optimality by
  CBC, so its returned `optimal_welfare` is the exact optimum of the
  formulation, and the pricing LP (a pure feasibility problem: no objective
  is ever added to `Pricing_Problem`) reports `Optimal` exactly when its
  constraint system is satisfiable.
-/

/-- A market: a set of goods and a set of bidders (`Market.__init__`).
Bidders are identified by their integer id; `base` gives each bidder's
base bundles (`get_base_bundles`) and `value` its valuation (`value_query`). -/
structure Market where
  goods : List ℕ
  bidderIds : List ℕ
  base : ℕ → List (Finset ℕ)
  value : ℕ → Finset ℕ → ℚ

/-- Maximum of two rationals, written as the comparison the Python code
performs (`if w >= max_welfare: max_welfare = w`).  Using an explicit `if`
keeps the definition kernel-computable on concrete inputs. -/
def qmax (a b : ℚ) : ℚ := if a ≤ b then b else a

theorem qmax_eq_max (a b : ℚ) : qmax a b = max a b := by
  simp [qmax, max_def]

theorem qmax_fun_eq : qmax = max :=
  funext fun a => funext fun b => qmax_eq_max a b

theorem foldl_qmax_eq_foldl_max (l : List ℚ) (a : ℚ) :
    l.foldl qmax a = l.foldl max a := by
  rw [qmax_fun_eq]

/-- `max` of a list of rationals with default `0` for the empty list, the
behaviour of Python's `max(xs, default=0)`.  Note that for a nonempty list
this is the plain maximum, **not** clamped at `0`. -/
def maxD0 : List ℚ → ℚ
  | [] => 0
  | x :: xs => xs.foldl qmax x

/-- All bundles over a list of goods: every subset, as in
`it.chain.from_iterable(it.combinations(s, r) for r in range(len(s) + 1))`.
The Python code enumerates the subsets grouped by size; the enumerated
collection of bundles is the same (all sublists of the goods list). -/
def subBundles (gs : List ℕ) : List (List ℕ) := gs.sublists

/-- Total value of a list of (bidder id, bundle) pairs: the sum of each
bidder's value for its assigned bundle, as computed at the leaves of the
brute-force search and in the ILP objective. -/
def selWelfare (M : Market) (sel : List (ℕ × Finset ℕ)) : ℚ :=
  (sel.map (fun p => M.value p.1 p.2)).sum

/-- All (partial) selections of at most one base bundle per bidder: the 0/1
assignments to the decision variables of `welfare_max_program`
(`generate_vars_maps` creates one variable per (bidder, base bundle) pair,
and the per-bidder constraint allows at most one of them to be 1). -/
def allSelections (M : Market) : List ℕ → List (List (ℕ × Finset ℕ))
  | [] => [[]]
  | i :: rest =>
    let s := allSelections M rest
    s ++ (M.base i).flatMap (fun B => s.map (fun sel => (i, B) :: sel))

/-- Boolean test that the bundles of a selection are pairwise disjoint.
This is exactly the conjunction of the per-good constraints of
`welfare_max_program` (each good allocated at most once). -/
def pairwiseDisjB : List (ℕ × Finset ℕ) → Bool
  | [] => true
  | p :: rest => rest.all (fun q => p.2 ∩ q.2 = ∅) && pairwiseDisjB rest

/-- The exact optimum of the welfare-maximization ILP
(`Market.welfare_max_program`): the best total value over all feasible 0/1
assignments, i.e. over all pairwise-disjoint selections of base bundles,
one per bidder at most.  The all-zero assignment (empty selection) is always
feasible, with objective 0, matching `result['optimal_welfare']` defaulting
to `0.0`. -/
def ilpOpt (M : Market) : ℚ :=
  (((allSelections M M.bidderIds).filter pairwiseDisjB).map (selWelfare M)).foldl qmax 0

/-- The optimum of the welfare ILP re-solved with the added constraint
`x[bidder, bundle] == 1` (`NoisyMarket.heuristic_upper_bound`, `ilp=True`
branch). -/
def constrainedIlpOpt (M : Market) (i : ℕ) (B : Finset ℕ) : ℚ :=
  maxD0 (((allSelections M M.bidderIds).filter
      (fun sel => pairwiseDisjB sel && decide ((i, B) ∈ sel))).map (selWelfare M))

/-- `Market.welfare_upper_bound`: the value of the forced bidder for its
forced bundle, plus, for every other bidder, the best value over its base
bundles disjoint from the forced bundle (`max(..., default=0)`). -/
def welfareUpperBound (M : Market) (i : ℕ) (B : Finset ℕ) : ℚ :=
  M.value i B +
    ((M.bidderIds.filter (fun j => j ≠ i)).map
      (fun j => maxD0 (((M.base j).filter (fun B' => B' ∩ B = ∅)).map (M.value j)))).sum

/-- Helper of `Market.__enumerate_all_allocations_helper`: recursively give
the next bidder every bundle of the remaining goods and recurse on the goods
left over.  Allocations are insertion-ordered association lists from bidder
id to bundle, mirroring the Python dict. -/
def enumAllocsHelper : List ℕ → List ℕ → List (ℕ × Finset ℕ) → List (List (ℕ × Finset ℕ))
  | [], _, alloc => [alloc]
  | i :: rest, gs, alloc =>
    (subBundles gs).flatMap
      (fun bun =>
        enumAllocsHelper rest (gs.filter (fun g => decide (g ∉ bun)))
          (alloc ++ [(i, bun.toFinset)]))

/-- `Market.enumerate_all_allocations`. -/
def allAllocations (M : Market) : List (List (ℕ × Finset ℕ)) :=
  enumAllocsHelper M.bidderIds M.goods []

/-- Welfare component of `Market.__brute_force_welfare_max_solver_helper`.
At a leaf (no bidders left) the welfare of the accumulated allocation is
returned; at an inner node the current bidder is given every bundle of the
remaining goods in turn and `max_welfare` is updated through
`if w >= max_welfare: max_welfare = w`. -/
def bruteHelper (M : Market) : List ℕ → List ℕ → List (ℕ × Finset ℕ) → ℚ → ℚ
  | [], _, alloc, _ => selWelfare M alloc
  | i :: rest, gs, alloc, maxw =>
    (subBundles gs).foldl
      (fun mw bun =>
        qmax mw
          (bruteHelper M rest (gs.filter (fun g => decide (g ∉ bun)))
            (alloc ++ [(i, bun.toFinset)]) mw))
      maxw

/-- The welfare value returned by `Market.brute_force_welfare_max_solver`:
the helper is seeded with `max_welfare = 0`. -/
def bruteForceWelfare (M : Market) : ℚ :=
  bruteHelper M M.bidderIds M.goods [] 0

/-- The best welfare over all enumerated partitions of the goods among the
bidders (what the spec calls "the maximum total value found over all such
partitions").  This is the claim-side reference value for the brute-force
solver; note there is no clamping at 0 here. -/
def maxAllocWelfare (M : Market) : ℚ :=
  maxD0 ((allAllocations M).map (selWelfare M))

section ListMaxLemmas

theorem le_foldl_max_init (l : List ℚ) (a : ℚ) : a ≤ l.foldl max a := by
  induction l generalizing a with
  | nil => exact le_refl a
  | cons x xs ih => exact le_trans (le_max_left a x) (ih (max a x))

theorem foldl_max_le (l : List ℚ) (a b : ℚ) (ha : a ≤ b) (h : ∀ x ∈ l, x ≤ b) :
    l.foldl max a ≤ b := by
  induction l generalizing a with
  | nil => exact ha
  | cons x xs ih =>
    exact ih (max a x) (max_le ha (h x (List.mem_cons_self x xs)))
      (fun y hy => h y (List.mem_cons_of_mem x hy))

theorem mem_le_foldl_max (l : List ℚ) (a x : ℚ) (hx : x ∈ l) : x ≤ l.foldl max a := by
  induction l generalizing a with
  | nil => cases hx
  | cons y ys ih =>
    rcases List.mem_cons.mp hx with h | h
    · subst h
      exact le_trans (le_max_right a x) (le_foldl_max_init ys (max a x))
    · exact ih (max a y) h

theorem foldl_max_max (l : List ℚ) (a b : ℚ) :
    l.foldl max (max a b) = max a (l.foldl max b) := by
  induction l generalizing b with
  | nil => rfl
  | cons x xs ih =>
    show xs.foldl max (max (max a b) x) = max a (xs.foldl max (max b x))
    rw [max_assoc, ih (max b x)]

theorem foldl_max_eq_maxD0 (l : List ℚ) (a : ℚ) (h : l ≠ []) :
    l.foldl max a = max a (maxD0 l) := by
  cases l with
  | nil => exact absurd rfl h
  | cons x xs =>
    show xs.foldl max (max a x) = max a (maxD0 (x :: xs))
    rw [show maxD0 (x :: xs) = xs.foldl qmax x from rfl, foldl_qmax_eq_foldl_max,
      foldl_max_max xs a x]

theorem mem_le_maxD0 (l : List ℚ) (x : ℚ) (hx : x ∈ l) : x ≤ maxD0 l := by
  cases l with
  | nil => cases hx
  | cons y ys =>
    rw [show maxD0 (y :: ys) = ys.foldl qmax y from rfl, foldl_qmax_eq_foldl_max]
    rcases List.mem_cons.mp hx with h | h
    · subst h
      exact le_foldl_max_init ys x
    · exact mem_le_foldl_max ys y x h

theorem maxD0_le (l : List ℚ) (b : ℚ) (hb : 0 ≤ b) (h : ∀ x ∈ l, x ≤ b) :
    maxD0 l ≤ b := by
  cases l with
  | nil => exact hb
  | cons x xs =>
    rw [show maxD0 (x :: xs) = xs.foldl qmax x from rfl, foldl_qmax_eq_foldl_max]
    exact foldl_max_le xs x b (h x (List.mem_cons_self x xs))
      (fun y hy => h y (List.mem_cons_of_mem x hy))

theorem maxD0_nonneg_of_forall (l : List ℚ) (h : ∀ x ∈ l, 0 ≤ x) : 0 ≤ maxD0 l := by
  cases l with
  | nil => exact le_refl 0
  | cons x xs =>
    rw [show maxD0 (x :: xs) = xs.foldl qmax x from rfl, foldl_qmax_eq_foldl_max]
    exact le_trans (h x (List.mem_cons_self x xs)) (le_foldl_max_init xs x)

end ListMaxLemmas

section SelWelfareLemmas

theorem selWelfare_nil (M : Market) : selWelfare M [] = 0 := rfl

theorem selWelfare_append (M : Market) (s t : List (ℕ × Finset ℕ)) :
    selWelfare M (s ++ t) = selWelfare M s + selWelfare M t := by
  simp [selWelfare]

theorem selWelfare_cons (M : Market) (p : ℕ × Finset ℕ) (s : List (ℕ × Finset ℕ)) :
    selWelfare M (p :: s) = M.value p.1 p.2 + selWelfare M s := by
  simp [selWelfare]

end SelWelfareLemmas

section BruteForce

theorem enumAllocsHelper_ne_nil :
    ∀ (bs gs : List ℕ) (alloc : List (ℕ × Finset ℕ)), enumAllocsHelper bs gs alloc ≠ [] := by
  intro bs
  induction bs with
  | nil => intro gs alloc; simp [enumAllocsHelper]
  | cons i rest ih =>
    intro gs alloc
    simp only [enumAllocsHelper, ne_eq, List.flatMap_eq_nil_iff, not_forall]
    refine ⟨[], ?_, ih _ _⟩
    simp [subBundles, List.mem_sublists]

/-- The brute-force helper computes the fold of `max`, seeded with the
incoming `max_welfare`, over the welfares of exactly the allocations that
`__enumerate_all_allocations_helper` would enumerate from the same state. -/
theorem bruteHelper_eq_foldl (M : Market) :
    ∀ (bs gs : List ℕ) (alloc : List (ℕ × Finset ℕ)) (maxw : ℚ), bs ≠ [] →
      bruteHelper M bs gs alloc maxw =
        ((enumAllocsHelper bs gs alloc).map (selWelfare M)).foldl max maxw := by
  intro bs
  induction bs with
  | nil => intro gs alloc maxw h; exact absurd rfl h
  | cons i rest ih =>
    intro gs alloc maxw _
    show (subBundles gs).foldl
        (fun mw bun =>
          qmax mw
            (bruteHelper M rest (gs.filter (fun g => decide (g ∉ bun)))
              (alloc ++ [(i, bun.toFinset)]) mw)) maxw = _
    simp only [qmax_eq_max]
    rw [show enumAllocsHelper (i :: rest) gs alloc
        = (subBundles gs).flatMap
            (fun bun => enumAllocsHelper rest (gs.filter (fun g => decide (g ∉ bun)))
              (alloc ++ [(i, bun.toFinset)])) from rfl]
    generalize subBundles gs = buns
    induction buns generalizing maxw with
    | nil => rfl
    | cons bun buns ihb =>
      simp only [List.foldl_cons, List.flatMap_cons, List.map_append, List.foldl_append]
      rcases eq_or_ne rest ([] : List ℕ) with hrest | hrest
      · subst hrest
        rw [show bruteHelper M [] (gs.filter (fun g => decide (g ∉ bun)))
            (alloc ++ [(i, bun.toFinset)]) maxw
            = selWelfare M (alloc ++ [(i, bun.toFinset)]) from rfl]
        rw [show enumAllocsHelper [] (gs.filter (fun g => decide (g ∉ bun)))
            (alloc ++ [(i, bun.toFinset)]) = [alloc ++ [(i, bun.toFinset)]] from rfl]
        exact ihb _
      · rw [ih _ _ maxw hrest]
        rw [max_eq_right (le_foldl_max_init _ maxw)]
        exact ihb _

/-- `brute_force_welfare_max_solver` returns `max 0` of the best welfare
over all partitions: the seed `max_welfare = 0` clamps the result at 0. -/
theorem bruteForceWelfare_eq (M : Market) :
    bruteForceWelfare M = max 0 (maxAllocWelfare M) := by
  rcases eq_or_ne M.bidderIds ([] : List ℕ) with h | h
  · rw [bruteForceWelfare, h]
    show selWelfare M [] = max 0 (maxAllocWelfare M)
    rw [maxAllocWelfare, allAllocations, h]
    show selWelfare M [] = max 0 (maxD0 [selWelfare M []])
    rw [selWelfare_nil]
    rfl
  · rw [bruteForceWelfare, bruteHelper_eq_foldl M M.bidderIds M.goods [] 0 h]
    rw [foldl_max_eq_maxD0 _ 0 ?hne]
    · rfl
    case hne =>
      simp only [ne_eq, List.map_eq_nil_iff]
      exact enumAllocsHelper_ne_nil _ _ _

end BruteForce

section Enumeration

/-- Any subset of the goods of a duplicate-free goods list is realized by a
sublist that the bundle enumeration produces. -/
theorem exists_sublist_toFinset (gs : List ℕ) (c : Finset ℕ) (h : c ⊆ gs.toFinset) :
    ∃ l ∈ subBundles gs, l.toFinset = c := by
  refine ⟨gs.filter (fun g => decide (g ∈ c)), ?_, ?_⟩
  · exact List.mem_sublists.mpr (List.filter_sublist gs)
  · rw [List.toFinset_filter]
    ext x
    simp only [Finset.mem_filter, List.mem_toFinset, decide_eq_true_eq]
    exact ⟨fun hx => hx.2, fun hx => ⟨List.mem_toFinset.mp (h hx), hx⟩⟩

/-- Soundness of the allocation enumeration: every enumerated allocation
extends the accumulator by one bundle per remaining bidder, the bundles are
subsets of the remaining goods, and they are pairwise disjoint. -/
theorem enumAllocsHelper_shape :
    ∀ (bs gs : List ℕ) (alloc A : List (ℕ × Finset ℕ)), A ∈ enumAllocsHelper bs gs alloc →
      ∃ ch : List (Finset ℕ), A = alloc ++ bs.zip ch ∧ ch.length = bs.length ∧
        (∀ c ∈ ch, c ⊆ gs.toFinset) ∧ ch.Pairwise (fun a b => a ∩ b = ∅) := by
  intro bs
  induction bs with
  | nil =>
    intro gs alloc A hA
    refine ⟨[], ?_, rfl, by simp, List.Pairwise.nil⟩
    simpa [enumAllocsHelper] using hA
  | cons i rest ih =>
    intro gs alloc A hA
    simp only [enumAllocsHelper, List.mem_flatMap] at hA
    obtain ⟨bun, hbun, hA⟩ := hA
    obtain ⟨ch', hshape, hlen, hsub, hpw⟩ := ih _ _ _ hA
    have hbunsub : bun.toFinset ⊆ gs.toFinset := by
      intro x hx
      exact List.mem_toFinset.mpr
        ((List.mem_sublists.mp hbun).subset (List.mem_toFinset.mp hx))
    have hfiltsub : (gs.filter (fun g => decide (g ∉ bun))).toFinset ⊆ gs.toFinset := by
      intro x hx
      rw [List.mem_toFinset, List.mem_filter] at hx
      exact List.mem_toFinset.mpr hx.1
    refine ⟨bun.toFinset :: ch', ?_, by simp [hlen], ?_, ?_⟩
    · rw [hshape, List.zip_cons_cons, List.append_cons, List.append_assoc]
      simp
    · intro c hc
      rcases List.mem_cons.mp hc with h | h
      · subst h; exact hbunsub
      · exact le_trans (hsub c h) hfiltsub
    · refine List.Pairwise.cons ?_ hpw
      intro c hc
      ext x
      simp only [Finset.mem_inter, Finset.not_mem_empty, iff_false, not_and]
      intro hxbun hxc
      have := hsub c hc hxc
      rw [List.mem_toFinset, List.mem_filter, decide_eq_true_eq] at this
      exact this.2 (List.mem_toFinset.mp hxbun)

/-- Completeness of the allocation enumeration: every assignment of pairwise
disjoint bundles drawn from the remaining (duplicate-free) goods appears
among the enumerated allocations. -/
theorem enumAllocsHelper_complete :
    ∀ (bs gs : List ℕ) (alloc : List (ℕ × Finset ℕ)) (ch : List (Finset ℕ)),
      gs.Nodup → ch.length = bs.length → (∀ c ∈ ch, c ⊆ gs.toFinset) →
      ch.Pairwise (fun a b => a ∩ b = ∅) →
      (alloc ++ bs.zip ch) ∈ enumAllocsHelper bs gs alloc := by
  intro bs
  induction bs with
  | nil =>
    intro gs alloc ch _ _ _ _
    simp [enumAllocsHelper]
  | cons i rest ih =>
    intro gs alloc ch hnd hlen hsub hpw
    cases ch with
    | nil => simp at hlen
    | cons c ch' =>
      obtain ⟨l, hl, hlfin⟩ := exists_sublist_toFinset gs c (hsub c (List.mem_cons_self c ch'))
      simp only [enumAllocsHelper, List.mem_flatMap]
      refine ⟨l, hl, ?_⟩
      rw [← hlfin, List.zip_cons_cons, List.append_cons, List.append_assoc]
      have hstep : (alloc ++ [(i, l.toFinset)]) ++ rest.zip ch'
          ∈ enumAllocsHelper rest (gs.filter (fun g => decide (g ∉ l)))
            (alloc ++ [(i, l.toFinset)]) := by
        refine ih _ _ ch' (hnd.filter _) (by simpa using hlen) ?_ (List.pairwise_cons.mp hpw).2
        intro c' hc' x hx
        rw [List.mem_toFinset, List.mem_filter, decide_eq_true_eq]
        have hxgs : x ∈ gs.toFinset := hsub c' (List.mem_cons_of_mem c hc') hx
        refine ⟨List.mem_toFinset.mp hxgs, ?_⟩
        intro hxl
        have hxc : x ∈ c := by rw [← hlfin]; exact List.mem_toFinset.mpr hxl
        have hdisj := (List.pairwise_cons.mp hpw).1 c' hc'
        have : x ∈ c ∩ c' := Finset.mem_inter.mpr ⟨hxc, hx⟩
        rw [hdisj] at this
        exact absurd this (Finset.not_mem_empty x)
      simpa using hstep

end Enumeration

section Selections

theorem pairwiseDisjB_iff (sel : List (ℕ × Finset ℕ)) :
    pairwiseDisjB sel = true ↔ sel.Pairwise (fun p q => p.2 ∩ q.2 = ∅) := by
  induction sel with
  | nil => simp [pairwiseDisjB]
  | cons p rest ih =>
    simp only [pairwiseDisjB, Bool.and_eq_true, List.all_eq_true, decide_eq_true_eq,
      List.pairwise_cons, ih]

theorem nil_mem_allSelections (M : Market) :
    ∀ bs : List ℕ, ([] : List (ℕ × Finset ℕ)) ∈ allSelections M bs := by
  intro bs
  induction bs with
  | nil => simp [allSelections]
  | cons i rest ih =>
    simp only [allSelections, List.mem_append]
    exact Or.inl ih

theorem allSelections_sound (M : Market) :
    ∀ (bs : List ℕ) (sel : List (ℕ × Finset ℕ)), sel ∈ allSelections M bs →
      (∀ q ∈ sel, q.1 ∈ bs ∧ q.2 ∈ M.base q.1) ∧ (sel.map Prod.fst).Sublist bs := by
  intro bs
  induction bs with
  | nil =>
    intro sel hsel
    simp only [allSelections, List.mem_singleton] at hsel
    subst hsel
    exact ⟨fun q hq => absurd hq (List.not_mem_nil q), by simp⟩
  | cons i rest ih =>
    intro sel hsel
    simp only [allSelections, List.mem_append, List.mem_flatMap, List.mem_map] at hsel
    rcases hsel with h | ⟨B, hB, sel', hsel', hcons⟩
    · obtain ⟨hmem, hsub⟩ := ih sel h
      exact ⟨fun q hq => ⟨List.mem_cons_of_mem i (hmem q hq).1, (hmem q hq).2⟩,
        hsub.trans (List.sublist_cons_self i rest)⟩
    · subst hcons
      obtain ⟨hmem, hsub⟩ := ih sel' hsel'
      constructor
      · intro q hq
        rcases List.mem_cons.mp hq with h | h
        · subst h
          exact ⟨List.mem_cons_self i rest, hB⟩
        · exact ⟨List.mem_cons_of_mem i (hmem q h).1, (hmem q h).2⟩
      · simpa using List.Sublist.cons₂ i hsub

theorem zero_le_ilpOpt (M : Market) : 0 ≤ ilpOpt M := by
  rw [ilpOpt, foldl_qmax_eq_foldl_max]
  exact le_foldl_max_init _ 0

theorem selWelfare_le_ilpOpt (M : Market) (sel : List (ℕ × Finset ℕ))
    (hmem : sel ∈ allSelections M M.bidderIds)
    (hdisj : sel.Pairwise (fun p q => p.2 ∩ q.2 = ∅)) :
    selWelfare M sel ≤ ilpOpt M := by
  rw [ilpOpt, foldl_qmax_eq_foldl_max]
  refine mem_le_foldl_max _ 0 _ (List.mem_map.mpr ⟨sel, ?_, rfl⟩)
  exact List.mem_filter.mpr ⟨hmem, (pairwiseDisjB_iff sel).mpr hdisj⟩

/-- The per-bidder domination hypothesis of the solver-agreement claim: a
bidder's value for any bundle of goods is at most `0` or at most its value
for some base bundle contained in that bundle.  (For a bundle that is itself
a base bundle the second branch holds trivially.)  Additive bidders satisfy
it with the bundle itself as base bundle, additive-with-budget likewise, and
single-minded bidders via their preferred bundle or the `0` branch. -/
def dominatedByBase (M : Market) : Prop :=
  ∀ i ∈ M.bidderIds, ∀ B ∈ M.goods.toFinset.powerset,
    M.value i B ≤ 0 ∨ ∃ B' ∈ M.base i, B' ⊆ B ∧ M.value i B ≤ M.value i B'

/-- Given per-pair domination, every list of (bidder, bundle) pairs with
pairwise disjoint bundles is weakly dominated by a feasible selection of
base bundles over the same bidder list. -/
theorem exists_dominating_selection (M : Market) :
    ∀ pairs : List (ℕ × Finset ℕ),
      (∀ p ∈ pairs, M.value p.1 p.2 ≤ 0 ∨
        ∃ B' ∈ M.base p.1, B' ⊆ p.2 ∧ M.value p.1 p.2 ≤ M.value p.1 B') →
      (pairs.map Prod.snd).Pairwise (fun a b => a ∩ b = ∅) →
      ∃ sel ∈ allSelections M (pairs.map Prod.fst),
        sel.Pairwise (fun p q => p.2 ∩ q.2 = ∅) ∧
        selWelfare M pairs ≤ selWelfare M sel ∧
        ∀ q ∈ sel, ∃ p ∈ pairs, q.2 ⊆ p.2 := by
  intro pairs
  induction pairs with
  | nil =>
    intro _ _
    exact ⟨[], List.mem_singleton.mpr rfl, List.Pairwise.nil, le_refl 0,
      fun q hq => absurd hq (List.not_mem_nil q)⟩
  | cons p rest ih =>
    intro hdom hpw
    obtain ⟨selR, hselRmem, hselRpw, hselRwel, hselRcov⟩ :=
      ih (fun q hq => hdom q (List.mem_cons_of_mem p hq))
        (List.pairwise_cons.mp (by simpa using hpw)).2
    rcases hdom p (List.mem_cons_self p rest) with hle | ⟨B', hB'base, hB'sub, hB'val⟩
    · refine ⟨selR, ?_, hselRpw, ?_, ?_⟩
      · simp only [List.map_cons, allSelections, List.mem_append]
        exact Or.inl hselRmem
      · rw [selWelfare_cons]
        exact le_trans (add_le_add_right hle _) (by simpa using hselRwel)
      · exact fun q hq =>
          (hselRcov q hq).elim (fun r hr => ⟨r, List.mem_cons_of_mem p hr.1, hr.2⟩)
    · have hheaddisj : ∀ q ∈ selR, B' ∩ q.2 = ∅ := by
        intro q hq
        obtain ⟨r, hrmem, hrsub⟩ := hselRcov q hq
        have hpr : p.2 ∩ r.2 = ∅ := by
          have := (List.pairwise_cons.mp (by simpa using hpw : (p.2 :: rest.map Prod.snd).Pairwise
            (fun a b => a ∩ b = ∅))).1
          exact this r.2 (List.mem_map.mpr ⟨r, hrmem, rfl⟩)
        ext x
        simp only [Finset.mem_inter, Finset.not_mem_empty, iff_false, not_and]
        intro hxB' hxq
        have : x ∈ p.2 ∩ r.2 := Finset.mem_inter.mpr ⟨hB'sub hxB', hrsub hxq⟩
        rw [hpr] at this
        exact absurd this (Finset.not_mem_empty x)
      refine ⟨(p.1, B') :: selR, ?_, ?_, ?_, ?_⟩
      · simp only [List.map_cons, allSelections, List.mem_append, List.mem_flatMap,
          List.mem_map]
        exact Or.inr ⟨B', hB'base, selR, hselRmem, rfl⟩
      · exact List.pairwise_cons.mpr ⟨fun q hq => hheaddisj q hq, hselRpw⟩
      · rw [selWelfare_cons, selWelfare_cons]
        exact add_le_add hB'val hselRwel
      · intro q hq
        rcases List.mem_cons.mp hq with h | h
        · subst h
          exact ⟨p, List.mem_cons_self p rest, hB'sub⟩
        · exact (hselRcov q h).elim (fun r hr => ⟨r, List.mem_cons_of_mem p hr.1, hr.2⟩)

end Selections

section Extension

/-- Every feasible selection of a market with nonnegative empty-bundle
values extends to an enumerated total allocation of at least the same
welfare (unselected bidders receive the empty bundle). -/
theorem exists_extending_allocation (M : Market) :
    ∀ (bs gs : List ℕ) (alloc sel : List (ℕ × Finset ℕ)),
      sel ∈ allSelections M bs →
      sel.Pairwise (fun p q => p.2 ∩ q.2 = ∅) →
      gs.Nodup →
      (∀ q ∈ sel, q.2 ⊆ gs.toFinset) →
      (∀ i ∈ bs, 0 ≤ M.value i ∅) →
      ∃ A ∈ enumAllocsHelper bs gs alloc,
        selWelfare M alloc + selWelfare M sel ≤ selWelfare M A := by
  intro bs
  induction bs with
  | nil =>
    intro gs alloc sel hsel _ _ _ _
    simp only [allSelections, List.mem_singleton] at hsel
    subst hsel
    exact ⟨alloc, List.mem_singleton.mpr rfl, by rw [selWelfare_nil, add_zero]⟩
  | cons i rest ih =>
    intro gs alloc sel hsel hpw hnd hsub hemp
    simp only [allSelections, List.mem_append, List.mem_flatMap, List.mem_map] at hsel
    rcases hsel with h | ⟨B, hBbase, sel', hsel', hcons⟩
    · -- bidder i unselected: give it the empty bundle
      obtain ⟨A, hAmem, hAwel⟩ := ih gs (alloc ++ [(i, (∅ : Finset ℕ))]) sel h hpw hnd hsub
        (fun j hj => hemp j (List.mem_cons_of_mem i hj))
      refine ⟨A, ?_, ?_⟩
      · simp only [enumAllocsHelper, List.mem_flatMap]
        refine ⟨[], by simp [subBundles, List.mem_sublists], ?_⟩
        simpa using hAmem
      · refine le_trans ?_ hAwel
        rw [selWelfare_append]
        have h0 : 0 ≤ selWelfare M [(i, (∅ : Finset ℕ))] := by
          rw [show selWelfare M [(i, (∅ : Finset ℕ))] = M.value i ∅ by
            simp [selWelfare]]
          exact hemp i (List.mem_cons_self i rest)
        linarith
    · -- bidder i selected with base bundle B
      subst hcons
      obtain ⟨l, hl, hlfin⟩ :=
        exists_sublist_toFinset gs B (hsub (i, B) (List.mem_cons_self _ sel'))
      have hstep := ih (gs.filter (fun g => decide (g ∉ l))) (alloc ++ [(i, B)]) sel' hsel'
        (List.pairwise_cons.mp hpw).2 (hnd.filter _) ?hsub'
        (fun j hj => hemp j (List.mem_cons_of_mem i hj))
      case hsub' =>
        intro q hq x hx
        rw [List.mem_toFinset, List.mem_filter, decide_eq_true_eq]
        have hxgs : x ∈ gs.toFinset := hsub q (List.mem_cons_of_mem _ hq) hx
        refine ⟨List.mem_toFinset.mp hxgs, ?_⟩
        intro hxl
        have hxB : x ∈ B := by rw [← hlfin]; exact List.mem_toFinset.mpr hxl
        have hdisj := (List.pairwise_cons.mp hpw).1 q hq
        have : x ∈ (i, B).2 ∩ q.2 := Finset.mem_inter.mpr ⟨hxB, hx⟩
        rw [hdisj] at this
        exact absurd this (Finset.not_mem_empty x)
      obtain ⟨A, hAmem, hAwel⟩ := hstep
      refine ⟨A, ?_, ?_⟩
      · simp only [enumAllocsHelper, List.mem_flatMap]
        exact ⟨l, hl, by rwa [hlfin]⟩
      · refine le_trans ?_ hAwel
        rw [selWelfare_append, selWelfare_cons]
        rw [show selWelfare M [(i, B)] = M.value i B by simp [selWelfare]]
        linarith

end Extension

section SolverAgreement

theorem allocWelfare_le_ilpOpt (M : Market) (hdom : dominatedByBase M)
    (A : List (ℕ × Finset ℕ)) (hA : A ∈ allAllocations M) :
    selWelfare M A ≤ ilpOpt M := by
  obtain ⟨ch, hshape, hlen, hsub, hpw⟩ := enumAllocsHelper_shape M.bidderIds M.goods [] A hA
  rw [List.nil_append] at hshape
  subst hshape
  have hfst : (M.bidderIds.zip ch).map Prod.fst = M.bidderIds :=
    List.map_fst_zip _ _ (le_of_eq hlen.symm)
  have hsnd : (M.bidderIds.zip ch).map Prod.snd = ch :=
    List.map_snd_zip _ _ (le_of_eq hlen)
  have hdomzip : ∀ p ∈ M.bidderIds.zip ch, M.value p.1 p.2 ≤ 0 ∨
      ∃ B' ∈ M.base p.1, B' ⊆ p.2 ∧ M.value p.1 p.2 ≤ M.value p.1 B' := by
    intro p hp
    have hmem : p.1 ∈ M.bidderIds ∧ p.2 ∈ ch := List.of_mem_zip (by rwa [show (p.1, p.2) = p from rfl])
    exact hdom p.1 hmem.1 p.2 (Finset.mem_powerset.mpr (hsub p.2 hmem.2))
  obtain ⟨sel, hselmem, hselpw, hselwel, _⟩ :=
    exists_dominating_selection M (M.bidderIds.zip ch) hdomzip (by rwa [hsnd])
  rw [hfst] at hselmem
  exact le_trans hselwel (selWelfare_le_ilpOpt M sel hselmem hselpw)

theorem ilpOpt_le_bruteForce (M : Market) (hg : M.goods.Nodup)
    (hbase : ∀ i ∈ M.bidderIds, ∀ B ∈ M.base i, B ⊆ M.goods.toFinset)
    (hemp : ∀ i ∈ M.bidderIds, 0 ≤ M.value i ∅) :
    ilpOpt M ≤ bruteForceWelfare M := by
  rw [bruteForceWelfare_eq, ilpOpt, foldl_qmax_eq_foldl_max]
  refine foldl_max_le _ 0 _ (le_max_left 0 _) ?_
  intro w hw
  obtain ⟨sel, hselmem, rfl⟩ := List.mem_map.mp hw
  have hself := List.mem_filter.mp hselmem
  have hsound := allSelections_sound M M.bidderIds sel hself.1
  obtain ⟨A, hAmem, hAwel⟩ := exists_extending_allocation M M.bidderIds M.goods [] sel
    hself.1 ((pairwiseDisjB_iff sel).mp hself.2) hg
    (fun q hq => hbase q.1 (hsound.1 q hq).1 q.2 (hsound.1 q hq).2) hemp
  rw [selWelfare_nil, zero_add] at hAwel
  exact le_trans hAwel (le_trans (mem_le_maxD0 _ _ (List.mem_map.mpr ⟨A, hAmem, rfl⟩))
    (le_max_right 0 _))

/-- C1 (amended): for every market with duplicate-free goods and bidder
ids, base bundles drawn from the goods, valuations dominated by contained
base bundles (or by 0), **and a nonnegative value for the empty bundle**,
the `optimal_welfare` of the ILP of `welfare_max_program` coincides exactly
with the welfare value returned by `brute_force_welfare_max_solver`.  The
hypothesis on the empty bundle (satisfied by the additive,
additive-with-budget and single-minded bidder kinds, whose empty-bundle
value is 0) is necessary: see the counterexample. -/
theorem c1_solver_agreement (M : Market) (_hids : M.bidderIds.Nodup)
    (hg : M.goods.Nodup)
    (hbase : ∀ i ∈ M.bidderIds, ∀ B ∈ M.base i, B ⊆ M.goods.toFinset)
    (hdom : dominatedByBase M)
    (hemp : ∀ i ∈ M.bidderIds, 0 ≤ M.value i ∅) :
    ilpOpt M = bruteForceWelfare M := by
  refine le_antisymm (ilpOpt_le_bruteForce M hg hbase hemp) ?_
  rw [bruteForceWelfare_eq]
  refine max_le (zero_le_ilpOpt M) ?_
  refine maxD0_le _ _ (zero_le_ilpOpt M) ?_
  intro w hw
  obtain ⟨A, hAmem, rfl⟩ := List.mem_map.mp hw
  exact allocWelfare_le_ilpOpt M hdom A hAmem

/-- Market refuting C1 as stated: one good `0`, two bidders that both want
`{0}` (values 5 and 1) but value the **empty** bundle at `-10`.  Both
bidders' base bundles are `∅` and `{0}`, so every bundle of goods is a base
bundle and the domination hypothesis holds (each bundle is dominated by
itself).  Yet the ILP returns 5 (it simply leaves bidder 1 unallocated)
while the brute-force solver returns 0: every total partition forces some
bidder to take the empty bundle at value -10, so the best partition has
welfare -5, which the solver's `max_welfare = 0` seed then clamps to 0. -/
def mkC1 : Market :=
  { goods := [0]
    bidderIds := [0, 1]
    base := fun _ => [∅, {0}]
    value := fun i B => if 0 ∈ B then (if i = 0 then 5 else 1) else -10 }

/-- C1 as stated is false: `mkC1` satisfies the domination hypothesis, yet
the ILP optimum (5) differs from the brute-force welfare (0). -/
theorem c1_counterexample :
    dominatedByBase mkC1 ∧ ilpOpt mkC1 ≠ bruteForceWelfare mkC1 := by
  constructor
  · unfold dominatedByBase
    decide
  · have h1 : ilpOpt mkC1 = 5 := by
      simp [ilpOpt, allSelections, pairwiseDisjB, selWelfare, qmax, mkC1]
      norm_num
    have h2 : bruteForceWelfare mkC1 = 0 := by
      simp [bruteForceWelfare, bruteHelper, subBundles, selWelfare, qmax, mkC1,
        List.sublists]
      norm_num
    rw [h1, h2]
    norm_num

/-- Single-minded market on two goods witnessing the amended C1. -/
def mkC1W : Market :=
  { goods := [0, 1]
    bidderIds := [0, 1]
    base := fun i => if i = 0 then [{0}] else [{0, 1}]
    value := fun i B =>
      if i = 0 then (if 0 ∈ B then 3 else 0) else (if 0 ∈ B ∧ 1 ∈ B then 4 else 0) }

theorem c1_witness : dominatedByBase mkC1W ∧ ilpOpt mkC1W = bruteForceWelfare mkC1W :=
  ⟨by unfold dominatedByBase; decide,
    c1_solver_agreement mkC1W (by decide) (by decide) (by decide)
      (by unfold dominatedByBase; decide) (by decide)⟩

/-- C6 (amended): the welfare value returned by
`brute_force_welfare_max_solver` is the maximum of 0 and the best total
value over all enumerated partitions of the goods among the bidders (the
helper seeds `max_welfare` with 0, which clamps an all-negative search at
0); the returned allocation is not guaranteed to attain this value. -/
theorem c6_brute_force_value (M : Market) :
    bruteForceWelfare M = max 0 (maxAllocWelfare M) :=
  bruteForceWelfare_eq M

/-- Market refuting C6 as stated: one bidder, no goods, and value `-1` for
the empty bundle.  The only partition has total value -1, but the solver
returns 0 (and `argmax_allocation = None`), so the returned welfare is not
the maximum total value over all partitions. -/
def mkC6 : Market :=
  { goods := []
    bidderIds := [0]
    base := fun _ => []
    value := fun _ _ => -1 }

/-- C6 as stated is false at `mkC6`: the brute-force solver returns 0
although the best (indeed only) partition has total value -1. -/
theorem c6_counterexample :
    bruteForceWelfare mkC6 = 0 ∧ maxAllocWelfare mkC6 = -1 ∧
      bruteForceWelfare mkC6 ≠ maxAllocWelfare mkC6 := by
  have h1 : bruteForceWelfare mkC6 = 0 := by
    simp [bruteForceWelfare, bruteHelper, subBundles, selWelfare, qmax, mkC6,
      List.sublists]
  have h2 : maxAllocWelfare mkC6 = -1 := by
    simp [maxAllocWelfare, allAllocations, enumAllocsHelper, subBundles, maxD0,
      selWelfare, mkC6, List.sublists]
  refine ⟨h1, h2, ?_⟩
  rw [h1, h2]
  norm_num

end SolverAgreement

section UpperBound

/-- C2 (amended): when all base-bundle values are nonnegative,
`welfare_upper_bound(b, B)` is at least the total welfare of every feasible
selection of pairwise-disjoint base bundles in which bidder `b` receives
exactly `B`.  Nonnegativity is necessary: with a negative base value the
`max(..., default=0)` term of an unallocated bidder can drag the bound below
the welfare of a partial allocation (see the counterexample). -/
theorem c2_upper_bound (M : Market) (i : ℕ) (B : Finset ℕ)
    (hids : M.bidderIds.Nodup)
    (hnn : ∀ j ∈ M.bidderIds, ∀ B' ∈ M.base j, 0 ≤ M.value j B')
    (sel : List (ℕ × Finset ℕ)) (hmem : sel ∈ allSelections M M.bidderIds)
    (hpw : sel.Pairwise (fun p q => p.2 ∩ q.2 = ∅))
    (hin : (i, B) ∈ sel) :
    selWelfare M sel ≤ welfareUpperBound M i B := by
  obtain ⟨s₁, s₂, rfl⟩ := List.append_of_mem hin
  have hsound := allSelections_sound M M.bidderIds _ hmem
  have hkeysnd : ((s₁ ++ (i, B) :: s₂).map Prod.fst).Nodup :=
    hsound.2.nodup hids
  -- the bound for one other bidder
  set bnd : ℕ → ℚ :=
    fun j => maxD0 (((M.base j).filter (fun B' => B' ∩ B = ∅)).map (M.value j)) with hbnd
  have hbnd_nonneg : ∀ j ∈ M.bidderIds, 0 ≤ bnd j := by
    intro j hj
    refine maxD0_nonneg_of_forall _ ?_
    intro x hx
    obtain ⟨B', hB', rfl⟩ := List.mem_map.mp hx
    exact hnn j hj B' (List.mem_filter.mp hB').1
  -- every other entry of the selection is bounded by its bidder's bound
  have hothers : ∀ q ∈ s₁ ++ s₂, M.value q.1 q.2 ≤ bnd q.1 := by
    intro q hq
    have hqsel : q ∈ s₁ ++ (i, B) :: s₂ := by
      rcases List.mem_append.mp hq with h | h
      · exact List.mem_append_left _ h
      · exact List.mem_append_right _ (List.mem_cons_of_mem _ h)
    have hqbase : q.2 ∈ M.base q.1 := (hsound.1 q hqsel).2
    have hqdisj : q.2 ∩ B = ∅ := by
      rcases List.mem_append.mp hq with h | h
      · have := (List.pairwise_append.mp hpw).2.2 q h (i, B) (List.mem_cons_self _ _)
        simpa using this
      · have := List.rel_of_pairwise_cons (List.pairwise_append.mp hpw).2.1 h
        rw [Finset.inter_comm]
        simpa using this
    refine mem_le_maxD0 _ _ ?_
    exact List.mem_map.mpr ⟨q.2, List.mem_filter.mpr ⟨hqbase, by simpa using hqdisj⟩, rfl⟩
  -- keys of the other entries sit inside the filtered bidder list
  have hkeysub : ∀ j ∈ (s₁ ++ s₂).map Prod.fst,
      j ∈ M.bidderIds.filter (fun j => j ≠ i) := by
    intro j hj
    obtain ⟨q, hq, rfl⟩ := List.mem_map.mp hj
    have hqsel : q ∈ s₁ ++ (i, B) :: s₂ := by
      rcases List.mem_append.mp hq with h | h
      · exact List.mem_append_left _ h
      · exact List.mem_append_right _ (List.mem_cons_of_mem _ h)
    refine List.mem_filter.mpr ⟨(hsound.1 q hqsel).1, ?_⟩
    have hinotin : q.1 ≠ i := by
      intro hqi
      rw [List.map_append, List.map_cons] at hkeysnd
      obtain ⟨_, hnd2, hdisj2⟩ := List.nodup_append.mp hkeysnd
      rcases List.mem_append.mp hq with h | h
      · exact hdisj2 (List.mem_map.mpr ⟨q, h, hqi⟩) (List.mem_cons_self _ _)
      · exact (List.nodup_cons.mp hnd2).1 (hqi ▸ List.mem_map.mpr ⟨q, h, rfl⟩)
    simpa using hinotin
  have hkeysnd' : ((s₁ ++ s₂).map Prod.fst).Nodup := by
    refine List.Nodup.sublist ?_ hkeysnd
    exact (List.Sublist.append (List.Sublist.refl s₁) (List.sublist_cons_self (i, B) s₂)).map
      Prod.fst
  -- sum the per-bidder bounds
  have hsum : selWelfare M (s₁ ++ s₂) ≤
      ((M.bidderIds.filter (fun j => j ≠ i)).map bnd).sum := by
    have h1 : selWelfare M (s₁ ++ s₂) ≤ (((s₁ ++ s₂).map Prod.fst).map bnd).sum := by
      rw [selWelfare, List.map_map]
      exact List.sum_le_sum (fun q hq => hothers q hq)
    refine le_trans h1 ?_
    rw [← List.sum_toFinset _ hkeysnd', ← List.sum_toFinset _ (hids.filter _)]
    refine Finset.sum_le_sum_of_subset_of_nonneg ?_ ?_
    · intro j hj
      exact List.mem_toFinset.mpr (hkeysub j (List.mem_toFinset.mp hj))
    · intro j hj _
      have := List.mem_filter.mp (List.mem_toFinset.mp hj)
      exact hbnd_nonneg j this.1
  -- assemble
  have hsplit : selWelfare M (s₁ ++ (i, B) :: s₂) =
      M.value i B + selWelfare M (s₁ ++ s₂) := by
    rw [selWelfare_append, selWelfare_cons, selWelfare_append]
    ring
  rw [hsplit, welfareUpperBound]
  exact add_le_add_left hsum _

end UpperBound

/-- Market refuting C2 as stated: bidder 0 wants `{0}` at value 5; bidder 1's
only base bundle is `{1}` with **negative** value -3.  Forcing bidder 0 onto
`{0}`, the allocation giving bidder 0 its bundle and nothing to bidder 1 has
welfare 5, but `welfare_upper_bound` is `5 + max([-3]) = 2 < 5`: the greedy
bound under-estimates because `max(..., default=0)` only defaults to 0 when
the filtered list is empty, and an unallocated bidder contributes its
(possibly negative) best disjoint base value rather than 0. -/
def mkC2 : Market :=
  { goods := [0, 1]
    bidderIds := [0, 1]
    base := fun i => if i = 0 then [{0}] else [{1}]
    value := fun i B =>
      if i = 0 then (if 0 ∈ B then 5 else 0) else (if 1 ∈ B then -3 else 0) }

/-- C2 as stated is false at `mkC2`: the selection `[(0, {0})]` allocates
disjoint base bundles with bidder 0 receiving exactly `{0}`, yet its welfare
exceeds `welfare_upper_bound(0, {0})`. -/
theorem c2_counterexample :
    [((0 : ℕ), ({0} : Finset ℕ))] ∈ allSelections mkC2 mkC2.bidderIds ∧
      List.Pairwise (fun p q : ℕ × Finset ℕ => p.2 ∩ q.2 = ∅) [((0 : ℕ), ({0} : Finset ℕ))] ∧
      ((0 : ℕ), ({0} : Finset ℕ)) ∈ [((0 : ℕ), ({0} : Finset ℕ))] ∧
      welfareUpperBound mkC2 0 {0} < selWelfare mkC2 [((0 : ℕ), ({0} : Finset ℕ))] := by
  refine ⟨by decide, by decide, by decide, ?_⟩
  have h1 : welfareUpperBound mkC2 0 {0} = 2 := by
    simp [welfareUpperBound, mkC2, maxD0]
    norm_num [Finset.ext_iff]
  have h2 : selWelfare mkC2 [((0 : ℕ), ({0} : Finset ℕ))] = 5 := by
    simp [selWelfare, mkC2]
  rw [h1, h2]
  norm_num

/-- Nonnegative variant of `mkC2` witnessing the amended C2. -/
def mkC2W : Market :=
  { goods := [0, 1]
    bidderIds := [0, 1]
    base := fun i => if i = 0 then [{0}] else [{1}]
    value := fun i B =>
      if i = 0 then (if 0 ∈ B then 5 else 0) else (if 1 ∈ B then 3 else 0) }

theorem c2_witness :
    selWelfare mkC2W [((0 : ℕ), ({0} : Finset ℕ)), ((1 : ℕ), ({1} : Finset ℕ))] ≤
      welfareUpperBound mkC2W 0 {0} :=
  c2_upper_bound mkC2W 0 {0} (by decide) (by decide) _ (by decide) (by decide) (by decide)

section EAP

/-- `NoisyMarket.prune`: split candidate (bidder, bundle) pairs on the test
`upper_bound + 2 * hat_epsilon * len(self.get_bidders()) < opt_welfare`.
The per-pair upper bound (`heuristic_upper_bound`) is passed as a function;
the Python loop that accumulates `prune_set` / `un_pruned` in order is
rendered as the corresponding pair of filters.  Un-pruned pairs are returned
together with their recorded bound-plus-slack value. -/
def pruneFn (M : Market) (boundFn : ℕ × Finset ℕ → ℚ)
    (candidates : List (ℕ × Finset ℕ)) (eps opt : ℚ) :
    List (ℕ × Finset ℕ) × List ((ℕ × Finset ℕ) × ℚ) :=
  (candidates.filter
      (fun p => decide (boundFn p + 2 * eps * (M.bidderIds.length : ℚ) < opt)),
    (candidates.filter
      (fun p => !decide (boundFn p + 2 * eps * (M.bidderIds.length : ℚ) < opt))).map
      (fun p => (p, boundFn p + 2 * eps * (M.bidderIds.length : ℚ))))

/-- `NoisyMarket.__init__`: initially every (bidder, bundle) pair with the
bidder having a base value for the bundle is active. -/
def initActive (M : Market) : List (ℕ × Finset ℕ) :=
  M.bidderIds.flatMap (fun i => (M.base i).map (fun B => (i, B)))

/-- The market with bidder valuations replaced by the current empirical
estimates (`NoisyBidder.value_query` answers with the empirical average). -/
def marketAt (M : Market) (v : ℕ → Finset ℕ → ℚ) : Market :=
  { M with value := v }

/-- Stable insertion step for sorting un-pruned pairs by their recorded
bound (`sorted(un_pruned_first_pass, key=lambda x: x[2])`). -/
def insertUB (x : (ℕ × Finset ℕ) × ℚ) :
    List ((ℕ × Finset ℕ) × ℚ) → List ((ℕ × Finset ℕ) × ℚ)
  | [] => [x]
  | y :: ys => if y.2 ≤ x.2 then y :: insertUB x ys else x :: y :: ys

/-- Ascending stable sort by recorded bound. -/
def sortByUB (l : List ((ℕ × Finset ℕ) × ℚ)) : List ((ℕ × Finset ℕ) × ℚ) :=
  l.foldr insertUB []

/-- One pruning round of `elicit_with_pruning`: a fast first pass with the
greedy `welfare_upper_bound`, then a second pass over the
`int(180 / (t + 1))` un-pruned pairs of lowest recorded bound using the
exact constrained ILP.  `vals t` gives the empirical values after round-t
sampling (the random sampling outcomes are injected as an oracle). -/
def eapPruneSet (M : Market) (vals : ℕ → ℕ → Finset ℕ → ℚ) (t : ℕ) (eps : ℚ)
    (active : List (ℕ × Finset ℕ)) : List (ℕ × Finset ℕ) :=
  let Mt := marketAt M (vals t)
  let opt := ilpOpt Mt
  let fp := pruneFn Mt (fun p => welfareUpperBound Mt p.1 p.2) active eps opt
  let retest := ((sortByUB fp.2).map Prod.fst).take (180 / (t + 1))
  let sp := pruneFn Mt (fun p => constrainedIlpOpt Mt p.1 p.2) retest eps opt
  fp.1 ++ sp.1

/-- End-of-round update of the active set:
`self._active_consumer_bundle_pair = self._active_consumer_bundle_pair - prune_set`. -/
def eapNextActive (M : Market) (vals : ℕ → ℕ → Finset ℕ → ℚ) (t : ℕ) (eps : ℚ)
    (active : List (ℕ × Finset ℕ)) : List (ℕ × Finset ℕ) :=
  active.filter (fun p => decide (p ∉ eapPruneSet M vals t eps active))

/-- The main loop of `NoisyMarket.elicit_with_pruning`, over the zipped
sampling/delta schedules.  `epsFn` abstracts the floating-point Hoeffding
radius `c * sqrt(ln(2 |active| / delta) / (2 n))` computed by `elicit` (a
total function of the active-set size, the round's delta and its sample
count); the sampled empirical values are injected through `vals`.  The
returned triple is `(total_num_iterations, actual_eps, final active set)`;
an exhausted schedule (only possible when it was empty) returns `none`,
matching the Python function falling off the loop and returning `None`. -/
def eapLoop (M : Market) (vals : ℕ → ℕ → Finset ℕ → ℚ) (epsFn : ℕ → ℚ → ℕ → ℚ)
    (target : ℚ) :
    ℕ → List (ℕ × ℚ) → List (ℕ × Finset ℕ) → Option (ℕ × ℚ × List (ℕ × Finset ℕ))
  | _, [], _ => none
  | t, (nt, delta) :: rest, active =>
    let eps := epsFn active.length delta nt
    if eps ≤ target ∨ active = [] ∨ rest = [] then some (t + 1, eps, active)
    else eapLoop M vals epsFn target (t + 1) rest (eapNextActive M vals t eps active)

/-- C3: a candidate pair is pruned iff its upper bound plus
`2 * epsilon * N` is strictly below the precomputed optimal welfare, where
`N` is the total number of bidders of the market; every other candidate is
returned un-pruned, carrying exactly that bound-plus-slack value. -/
theorem c3_prune_membership (M : Market) (boundFn : ℕ × Finset ℕ → ℚ)
    (candidates : List (ℕ × Finset ℕ)) (eps opt : ℚ) (p : ℕ × Finset ℕ) :
    (p ∈ (pruneFn M boundFn candidates eps opt).1 ↔
      p ∈ candidates ∧ boundFn p + 2 * eps * (M.bidderIds.length : ℚ) < opt) ∧
    ((p, boundFn p + 2 * eps * (M.bidderIds.length : ℚ)) ∈
        (pruneFn M boundFn candidates eps opt).2 ↔
      p ∈ candidates ∧ ¬ boundFn p + 2 * eps * (M.bidderIds.length : ℚ) < opt) ∧
    (∀ x ∈ (pruneFn M boundFn candidates eps opt).2,
      x.1 ∈ candidates ∧ x.2 = boundFn x.1 + 2 * eps * (M.bidderIds.length : ℚ) ∧
        ¬ boundFn x.1 + 2 * eps * (M.bidderIds.length : ℚ) < opt) := by
  refine ⟨?_, ?_, ?_⟩
  · simp [pruneFn, List.mem_filter]
  · constructor
    · intro hx
      obtain ⟨q, hq, hqe⟩ := List.mem_map.mp hx
      have h1 := List.mem_filter.mp hq
      have hqp : q = p := congrArg Prod.fst hqe
      subst hqp
      simpa using h1
    · intro ⟨h1, h2⟩
      exact List.mem_map.mpr ⟨p, List.mem_filter.mpr ⟨h1, by simpa using h2⟩, rfl⟩
  · intro x hx
    obtain ⟨q, hq, rfl⟩ := List.mem_map.mp hx
    have h1 := List.mem_filter.mp hq
    exact ⟨h1.1, rfl, by simpa using h1.2⟩

theorem c3_witness :
    ((0 : ℕ), ({0} : Finset ℕ)) ∈
      (pruneFn mkC2 (fun _ => 0) [((0 : ℕ), ({0} : Finset ℕ))] 0 1).1 :=
  ((c3_prune_membership mkC2 (fun _ => 0) [((0 : ℕ), ({0} : Finset ℕ))] 0 1
    ((0 : ℕ), ({0} : Finset ℕ))).1).mpr ⟨by decide, by norm_num⟩

theorem eapNextActive_subset (M : Market) (vals : ℕ → ℕ → Finset ℕ → ℚ) (t : ℕ)
    (eps : ℚ) (active : List (ℕ × Finset ℕ)) :
    eapNextActive M vals t eps active ⊆ active := by
  intro p hp
  exact (List.mem_filter.mp hp).1

theorem eapLoop_final_subset (M : Market) (vals : ℕ → ℕ → Finset ℕ → ℚ)
    (epsFn : ℕ → ℚ → ℕ → ℚ) (target : ℚ) :
    ∀ (sched : List (ℕ × ℚ)) (t : ℕ) (active : List (ℕ × Finset ℕ)) r,
      eapLoop M vals epsFn target t sched active = some r → r.2.2 ⊆ active := by
  intro sched
  induction sched with
  | nil => intro t active r h; exact absurd h (by simp [eapLoop])
  | cons head rest ih =>
    intro t active r h
    rw [show eapLoop M vals epsFn target t (head :: rest) active =
        (if epsFn active.length head.2 head.1 ≤ target ∨ active = [] ∨ rest = [] then
          some (t + 1, epsFn active.length head.2 head.1, active)
        else eapLoop M vals epsFn target (t + 1) rest
          (eapNextActive M vals t (epsFn active.length head.2 head.1) active)) from rfl] at h
    split at h
    · cases h
      exact fun p hp => hp
    · exact fun p hp =>
        eapNextActive_subset M vals t (epsFn active.length head.2 head.1) active
          (ih (t + 1) _ r h hp)

/-- C4: the active set starts as all (bidder, bundle) pairs with a base
value, each pruning round only removes pairs (the next active set is a
subset of the current one, hence the final active set is a subset of the
initial one), and an empty active set is a valid terminal state (the loop
returns at once on it). -/
theorem c4_active_set_shrinks :
    (∀ (M : Market) (p : ℕ × Finset ℕ),
      p ∈ initActive M ↔ p.1 ∈ M.bidderIds ∧ p.2 ∈ M.base p.1) ∧
    (∀ (M : Market) (vals : ℕ → ℕ → Finset ℕ → ℚ) (t : ℕ) (eps : ℚ)
      (active : List (ℕ × Finset ℕ)), eapNextActive M vals t eps active ⊆ active) ∧
    (∀ (M : Market) (vals : ℕ → ℕ → Finset ℕ → ℚ) (epsFn : ℕ → ℚ → ℕ → ℚ)
      (target : ℚ) (sched : List (ℕ × ℚ)) (t : ℕ) (active : List (ℕ × Finset ℕ)) r,
      eapLoop M vals epsFn target t sched active = some r → r.2.2 ⊆ active) ∧
    (∀ (M : Market) (vals : ℕ → ℕ → Finset ℕ → ℚ) (epsFn : ℕ → ℚ → ℕ → ℚ)
      (target : ℚ) (t : ℕ) (nt : ℕ) (delta : ℚ) (rest : List (ℕ × ℚ)),
      eapLoop M vals epsFn target t ((nt, delta) :: rest) [] =
        some (t + 1, epsFn 0 delta nt, [])) := by
  refine ⟨?_, ?_, ?_, ?_⟩
  · intro M p
    simp only [initActive, List.mem_flatMap, List.mem_map]
    constructor
    · rintro ⟨i, hi, B, hB, rfl⟩
      exact ⟨hi, hB⟩
    · intro ⟨h1, h2⟩
      exact ⟨p.1, h1, p.2, h2, rfl⟩
  · exact eapNextActive_subset
  · intro M vals epsFn target sched t active r
    exact eapLoop_final_subset M vals epsFn target sched t active r
  · intro M vals epsFn target t nt delta rest
    rw [show eapLoop M vals epsFn target t ((nt, delta) :: rest) [] =
        (if epsFn ([] : List (ℕ × Finset ℕ)).length delta nt ≤ target ∨
            ([] : List (ℕ × Finset ℕ)) = [] ∨ rest = [] then
          some (t + 1, epsFn ([] : List (ℕ × Finset ℕ)).length delta nt, [])
        else eapLoop M vals epsFn target (t + 1) rest
          (eapNextActive M vals t (epsFn ([] : List (ℕ × Finset ℕ)).length delta nt) []))
        from rfl]
    rw [if_pos (Or.inr (Or.inl rfl))]
    rfl

theorem c4_witness :
    ((0 : ℕ), ({0} : Finset ℕ)) ∈ initActive mkC2W ∧
      eapNextActive mkC2W (fun _ => mkC2W.value) 0 1 (initActive mkC2W) ⊆
        initActive mkC2W ∧
      eapLoop mkC2W (fun _ => mkC2W.value) (fun _ _ _ => 1) 1 0 [(1, 1)] [] =
        some (1, 1, []) :=
  ⟨(c4_active_set_shrinks.1 mkC2W ((0 : ℕ), ({0} : Finset ℕ))).mpr (by decide),
    c4_active_set_shrinks.2.1 mkC2W (fun _ => mkC2W.value) 0 1 (initActive mkC2W),
    c4_active_set_shrinks.2.2.2 mkC2W (fun _ => mkC2W.value) (fun _ _ _ => 1) 1 0 1 1 []⟩

theorem eapLoop_terminates (M : Market) (vals : ℕ → ℕ → Finset ℕ → ℚ)
    (epsFn : ℕ → ℚ → ℕ → ℚ) (target : ℚ) :
    ∀ (sched : List (ℕ × ℚ)) (t : ℕ) (active : List (ℕ × Finset ℕ)), sched ≠ [] →
      ∃ k eps fin, eapLoop M vals epsFn target t sched active = some (k, eps, fin) ∧
        t < k ∧ k ≤ t + sched.length ∧ (eps ≤ target ∨ fin = [] ∨ k = t + sched.length) := by
  intro sched
  induction sched with
  | nil => intro t active h; exact absurd rfl h
  | cons head rest ih =>
    intro t active _
    rw [show eapLoop M vals epsFn target t (head :: rest) active =
        (if epsFn active.length head.2 head.1 ≤ target ∨ active = [] ∨ rest = [] then
          some (t + 1, epsFn active.length head.2 head.1, active)
        else eapLoop M vals epsFn target (t + 1) rest
          (eapNextActive M vals t (epsFn active.length head.2 head.1) active)) from rfl]
    by_cases hc : epsFn active.length head.2 head.1 ≤ target ∨ active = [] ∨ rest = []
    · rw [if_pos hc]
      refine ⟨t + 1, epsFn active.length head.2 head.1, active, rfl, Nat.lt_succ_self t,
        by simp, ?_⟩
      rcases hc with h | h | h
      · exact Or.inl h
      · exact Or.inr (Or.inl h)
      · subst h
        exact Or.inr (Or.inr rfl)
    · rw [if_neg hc]
      have hrest : rest ≠ [] := fun h => hc (Or.inr (Or.inr h))
      obtain ⟨k, eps, fin, heq, hlt, hle, hstop⟩ :=
        ih (t + 1) (eapNextActive M vals t (epsFn active.length head.2 head.1) active) hrest
      refine ⟨k, eps, fin, heq, Nat.lt_of_succ_lt hlt, ?_, ?_⟩
      · calc k ≤ t + 1 + rest.length := hle
          _ = t + (head :: rest).length := by simp [List.length_cons]; ring
      · rcases hstop with h | h | h
        · exact Or.inl h
        · exact Or.inr (Or.inl h)
        · refine Or.inr (Or.inr ?_)
          rw [h]
          simp [List.length_cons]
          ring

/-- C5: for equal-length, non-empty schedules and positive target epsilon,
`elicit_with_pruning` stops at the first round whose epsilon is at most the
target, whose post-sampling active set is empty, or which is the last
scheduled round (first two conjuncts: the loop returns immediately exactly
under that disjunction and otherwise recurses into the next round), it
terminates within `len(sampling_schedule)` rounds, and the returned
`total_num_iterations` is at least 1 and at most the schedule length, with
the stopping disjunction holding at the returned round (third conjunct). -/
theorem c5_terminates_within_schedule (M : Market) (vals : ℕ → ℕ → Finset ℕ → ℚ)
    (epsFn : ℕ → ℚ → ℕ → ℚ) (target : ℚ) (ns : List ℕ) (ds : List ℚ)
    (hlen : ns.length = ds.length) (hne : ns ≠ []) (_htarget : 0 < target) :
    (∀ (t nt : ℕ) (delta : ℚ) (rest : List (ℕ × ℚ)) (active : List (ℕ × Finset ℕ)),
      (epsFn active.length delta nt ≤ target ∨ active = [] ∨ rest = []) →
        eapLoop M vals epsFn target t ((nt, delta) :: rest) active =
          some (t + 1, epsFn active.length delta nt, active)) ∧
    (∀ (t nt : ℕ) (delta : ℚ) (rest : List (ℕ × ℚ)) (active : List (ℕ × Finset ℕ)),
      ¬ (epsFn active.length delta nt ≤ target ∨ active = [] ∨ rest = []) →
        eapLoop M vals epsFn target t ((nt, delta) :: rest) active =
          eapLoop M vals epsFn target (t + 1) rest
            (eapNextActive M vals t (epsFn active.length delta nt) active)) ∧
    (∃ k eps fin,
      eapLoop M vals epsFn target 0 (ns.zip ds) (initActive M) = some (k, eps, fin) ∧
        1 ≤ k ∧ k ≤ ns.length ∧ (eps ≤ target ∨ fin = [] ∨ k = ns.length)) := by
  refine ⟨?_, ?_, ?_⟩
  · intro t nt delta rest active hc
    rw [show eapLoop M vals epsFn target t ((nt, delta) :: rest) active =
        (if epsFn active.length delta nt ≤ target ∨ active = [] ∨ rest = [] then
          some (t + 1, epsFn active.length delta nt, active)
        else eapLoop M vals epsFn target (t + 1) rest
          (eapNextActive M vals t (epsFn active.length delta nt) active)) from rfl]
    rw [if_pos hc]
  · intro t nt delta rest active hc
    rw [show eapLoop M vals epsFn target t ((nt, delta) :: rest) active =
        (if epsFn active.length delta nt ≤ target ∨ active = [] ∨ rest = [] then
          some (t + 1, epsFn active.length delta nt, active)
        else eapLoop M vals epsFn target (t + 1) rest
          (eapNextActive M vals t (epsFn active.length delta nt) active)) from rfl]
    rw [if_neg hc]
  · have hzlen : (ns.zip ds).length = ns.length := by
      rw [List.length_zip, hlen, Nat.min_self]
    have hzne : ns.zip ds ≠ [] := by
      intro h
      have := congrArg List.length h
      rw [hzlen] at this
      exact hne (List.length_eq_zero.mp this)
    obtain ⟨k, eps, fin, heq, hlt, hle, hstop⟩ :=
      eapLoop_terminates M vals epsFn target (ns.zip ds) 0 (initActive M) hzne
    refine ⟨k, eps, fin, heq, hlt, by rwa [Nat.zero_add, hzlen] at hle, ?_⟩
    rcases hstop with h | h | h
    · exact Or.inl h
    · exact Or.inr (Or.inl h)
    · refine Or.inr (Or.inr ?_)
      rw [h, Nat.zero_add, hzlen]

theorem c5_witness :
    ∃ k eps fin,
      eapLoop mkC2W (fun _ => mkC2W.value) (fun _ _ _ => 1) 1 0
          ([1].zip [(1 : ℚ)]) (initActive mkC2W) = some (k, eps, fin) ∧
        1 ≤ k ∧ k ≤ [1].length ∧ (eps ≤ 1 ∨ fin = [] ∨ k = [1].length) :=
  (c5_terminates_within_schedule mkC2W (fun _ => mkC2W.value) (fun _ _ _ => 1) 1
    [1] [(1 : ℚ)] (by decide) (by decide) (by norm_num)).2.2

end EAP

section NoisyBidder

/-- `NoisyBidder`: a map from base bundles to their (hidden) base values,
and the current empirical record per base bundle —
`(empirical average, epsilon, number of samples)`, where the first two are
`None` until `sample_value_query` has been called for the bundle. -/
structure NoisyBidderState where
  baseVals : List (Finset ℕ × ℚ)
  empirical : List (Finset ℕ × (Option ℚ × Option ℚ × ℕ))

/-- `NoisyBidder.__init__`: every base bundle starts with the record
`(None, None, 0)`. -/
def initNoisyBidder (baseVals : List (Finset ℕ × ℚ)) : NoisyBidderState :=
  { baseVals := baseVals
    empirical := baseVals.map (fun p => (p.1, ((none : Option ℚ), (none : Option ℚ), 0))) }

/-- `NoisyBidder.value_query`: look the bundle up in the empirical map
(`KeyError`, i.e. `none`, if absent), then return its empirical average; the
`assert ... is not None` failure is an error (`none`), never a default
value. -/
def nbValueQuery (s : NoisyBidderState) (B : Finset ℕ) : Option ℚ :=
  match (s.empirical.find? (fun p => decide (p.1 = B))).map Prod.snd with
  | none => none
  | some (v, _, _) => v

/-- `NoisyBidder.sample_value_query`: asserts the bundle has a base value,
then overwrites the bundle's empirical record with the new average (the
realized sample mean is injected as `avg`, since it is produced by the
random noise generator), the round's epsilon and the sample count. -/
def nbSampleValueQuery (s : NoisyBidderState) (B : Finset ℕ) (numSamples : ℕ)
    (eps avg : ℚ) : Option NoisyBidderState :=
  if (s.baseVals.find? (fun p => decide (p.1 = B))).isSome then
    some { s with
      empirical := s.empirical.map
        (fun p => if p.1 = B then (p.1, (some avg, some eps, numSamples)) else p) }
  else none

theorem find?_empirical_update_ne
    (l : List (Finset ℕ × (Option ℚ × Option ℚ × ℕ))) (B B' : Finset ℕ)
    (v : Option ℚ × Option ℚ × ℕ) (hne : B' ≠ B) :
    (l.map (fun p => if p.1 = B' then (p.1, v) else p)).find?
        (fun p => decide (p.1 = B)) =
      l.find? (fun p => decide (p.1 = B)) := by
  induction l with
  | nil => rfl
  | cons p l ih =>
    have hkey : (if p.1 = B' then (p.1, v) else p).1 = p.1 := by
      by_cases h : p.1 = B'
      · rw [if_pos h]
      · rw [if_neg h]
    by_cases hpB : p.1 = B
    · rw [List.map_cons, List.find?_cons_of_pos, List.find?_cons_of_pos]
      · have : p.1 ≠ B' := fun h => hne (h ▸ hpB ▸ rfl)
        rw [if_neg this]
      · simpa using hpB
      · rw [hkey]
        simpa using hpB
    · rw [List.map_cons, List.find?_cons_of_neg, List.find?_cons_of_neg, ih]
      · simpa using hpB
      · rw [hkey]
        simpa using hpB

/-- C9: a `value_query` for a bundle of the base-value map fails (returns
`none`, the embedding of the `assert`-failure) as long as no
`sample_value_query` for **that** bundle has occurred, never answering 0 or
any other default: on a freshly constructed noisy bidder the query fails
(first conjunct), and sampling any other bundle does not change the answer
for this one (second conjunct). -/
theorem c9_value_query_before_sampling :
    (∀ (baseVals : List (Finset ℕ × ℚ)) (B : Finset ℕ), B ∈ baseVals.map Prod.fst →
      nbValueQuery (initNoisyBidder baseVals) B = none) ∧
    (∀ (s s' : NoisyBidderState) (B B' : Finset ℕ) (numSamples : ℕ) (eps avg : ℚ),
      B' ≠ B → nbSampleValueQuery s B' numSamples eps avg = some s' →
        nbValueQuery s' B = nbValueQuery s B) := by
  constructor
  · intro baseVals B _hB
    rw [nbValueQuery]
    rcases hfind : ((initNoisyBidder baseVals).empirical.find?
        (fun p => decide (p.1 = B))).map Prod.snd with _ | ⟨v, e, n⟩
    · rw [hfind]
    · rw [hfind]
      obtain ⟨q, hq1, hq2⟩ := Option.map_eq_some'.mp hfind
      have hqmem := List.mem_of_find?_eq_some hq1
      simp only [initNoisyBidder, List.mem_map] at hqmem
      obtain ⟨p, _, rfl⟩ := hqmem
      have hvn : (v, e, n) = ((none : Option ℚ), (none : Option ℚ), 0) := by
        rw [← hq2]
      simpa using congrArg Prod.fst hvn
  · intro s s' B B' numSamples eps avg hne hsample
    rw [nbSampleValueQuery] at hsample
    split at hsample
    · cases hsample
      rw [nbValueQuery, nbValueQuery]
      rw [show (fun p : Finset ℕ × (Option ℚ × Option ℚ × ℕ) =>
          if p.1 = B' then (p.1, (some avg, some eps, numSamples)) else p)
          = (fun p : Finset ℕ × (Option ℚ × Option ℚ × ℕ) =>
            if p.1 = B' then (p.1, ((some avg, some eps, numSamples) :
              Option ℚ × Option ℚ × ℕ)) else p) from rfl]
      rw [find?_empirical_update_ne s.empirical B B'
        ((some avg, some eps, numSamples) : Option ℚ × Option ℚ × ℕ) hne]
    · cases hsample

theorem c9_witness :
    ({0} : Finset ℕ) ∈ ([(({0} : Finset ℕ), (3 : ℚ))].map Prod.fst) ∧
      nbValueQuery (initNoisyBidder [(({0} : Finset ℕ), (3 : ℚ))]) {0} = none :=
  ⟨by decide,
    c9_value_query_before_sampling.1 [(({0} : Finset ℕ), (3 : ℚ))] {0} (by decide)⟩

end NoisyBidder

section PricingKeys

/-- The keys of the bundle-price map built by `Market.get_bundle_prices`:
`Bidder.get_set_of_all_bundles(len(self._goods))`, i.e. all subsets of
`{0, ..., len(goods) - 1}` as frozensets. -/
def allRangeBundles (n : ℕ) : List (Finset ℕ) :=
  (subBundles (List.range n)).map List.toFinset

/-- The per-good price-variable lookups performed while building the
bundle-price map: `linear_prices[good]` for every good of every enumerated
bundle, where `linear_prices` is keyed by the **actual** goods of the
market.  `false` models the `KeyError`. -/
def getBundlePricesOk (M : Market) : Bool :=
  (subBundles (List.range M.goods.length)).all
    (fun bun => bun.all (fun g => decide (g ∈ M.goods)))

/-- All dictionary lookups of `Market.pricing` (linear variant): building
the bundle-price map, looking up `map_bundle_to_price[allocation[bidder]]`
for each allocated bidder (both in the utility constraints and in the
revenue expression), and looking up `map_bundle_to_price[frozenset(bundle)]`
for every bundle of every enumerated allocation. -/
def pricingKeysOk (M : Market) (alloc : List (ℕ × Finset ℕ)) : Bool :=
  getBundlePricesOk M &&
    alloc.all (fun p => decide (p.2 ∈ allRangeBundles M.goods.length)) &&
    (allAllocations M).all
      (fun A => A.all (fun p => decide (p.2 ∈ allRangeBundles M.goods.length)))

theorem mem_allRangeBundles (n : ℕ) (B : Finset ℕ) (h : B ⊆ Finset.range n) :
    B ∈ allRangeBundles n := by
  obtain ⟨l, hl, hfin⟩ := exists_sublist_toFinset (List.range n) B (by
    intro x hx
    rw [List.mem_toFinset, List.mem_range]
    exact Finset.mem_range.mp (h hx))
  exact List.mem_map.mpr ⟨l, hl, hfin⟩

/-- When the goods are exactly `{0, ..., n-1}` and the allocation's bundles
are bundles of goods, every lookup in `pricing` succeeds. -/
theorem pricingKeysOk_of_range (M : Market) (alloc : List (ℕ × Finset ℕ))
    (hrange : M.goods.toFinset = Finset.range M.goods.length)
    (halloc : ∀ p ∈ alloc, p.2 ⊆ M.goods.toFinset) :
    pricingKeysOk M alloc = true := by
  have hsubrange : M.goods.toFinset ⊆ Finset.range M.goods.length := le_of_eq hrange
  rw [pricingKeysOk, Bool.and_eq_true, Bool.and_eq_true]
  refine ⟨⟨?_, ?_⟩, ?_⟩
  · rw [getBundlePricesOk, List.all_eq_true]
    intro bun hbun
    rw [List.all_eq_true]
    intro g hg
    rw [decide_eq_true_eq, ← List.mem_toFinset, hrange, Finset.mem_range]
    have hsl := List.mem_sublists.mp hbun
    have := hsl.subset hg
    rwa [List.mem_range] at this
  · rw [List.all_eq_true]
    intro p hp
    rw [decide_eq_true_eq]
    exact mem_allRangeBundles _ _ (le_trans (halloc p hp) hsubrange)
  · rw [List.all_eq_true]
    intro A hA
    rw [List.all_eq_true]
    intro p hp
    rw [decide_eq_true_eq]
    obtain ⟨ch, hshape, hlen, hsub, _⟩ :=
      enumAllocsHelper_shape M.bidderIds M.goods [] A hA
    rw [List.nil_append] at hshape
    subst hshape
    have hmem := List.of_mem_zip (by rwa [show (p.1, p.2) = p from rfl])
    exact mem_allRangeBundles _ _ (le_trans (hsub p.2 hmem.2) hsubrange)

/-- Market with goods labeled `{1, 2}` instead of `{0, 1}`:
`get_bundle_prices` immediately dies with a `KeyError`, since it prices the
bundles of `{0, 1}` but its price variables are keyed by the goods 1 and 2. -/
def mkC10 : Market :=
  { goods := [1, 2]
    bidderIds := [0]
    base := fun _ => [{1}]
    value := fun _ B => if 1 ∈ B then 1 else 0 }

/-- C10: the pricing solver silently requires the goods to be exactly
`{0, ..., n-1}`.  When they are (and the allocation's bundles are bundles
of goods), every dictionary lookup of the linear `pricing` call succeeds;
for the market `mkC10`, whose goods carry the labels `{1, 2}`, the call
dies in a missing-key error (`pricingKeysOk = false`) instead of returning
a status. -/
theorem c10_goods_labeling :
    (∀ (M : Market) (alloc : List (ℕ × Finset ℕ)),
      M.goods.toFinset = Finset.range M.goods.length →
      (∀ p ∈ alloc, p.2 ⊆ M.goods.toFinset) →
      pricingKeysOk M alloc = true) ∧
    pricingKeysOk mkC10 [((0 : ℕ), ({1} : Finset ℕ))] = false := by
  constructor
  · intro M alloc hrange halloc
    exact pricingKeysOk_of_range M alloc hrange halloc
  · decide

theorem c10_witness : pricingKeysOk mkC2W [((0 : ℕ), ({0} : Finset ℕ))] = true :=
  c10_goods_labeling.1 mkC2W [((0 : ℕ), ({0} : Finset ℕ))] (by decide) (by decide)

end PricingKeys

section Pricing

/-- Linear bundle price: the sum of the per-good prices of the goods in the
bundle (`lpSum([linear_prices[good] for good in bundle])`). -/
def bundleLinPrice (p : ℕ → ℚ) (B : Finset ℕ) : ℚ := B.sum p

/-- Non-linear (quadratic) bundle price: the linear part plus one price per
unordered pair of goods contained in the bundle
(`lpSum([quadra_prices[pair] for pair in it.combinations(bundle, 2)])`). -/
def bundleQuadPrice (p : ℕ → ℚ) (q : Finset ℕ → ℚ) (B : Finset ℕ) : ℚ :=
  B.sum p + (B.powersetCard 2).sum q

/-- The utility-maximization (no-envy) constraints of `Market.pricing`: for
every bidder and every bundle of the enumerated bundle universe, the
bidder's utility for that bundle is at most its utility for its allocated
bundle (0 value and 0 price when unallocated). -/
def umConstraints (M : Market) (alloc : List (ℕ × Finset ℕ))
    (priceOf : Finset ℕ → ℚ) : Prop :=
  ∀ i ∈ M.bidderIds, ∀ B ∈ allRangeBundles M.goods.length,
    M.value i B - priceOf B ≤
      match (alloc.find? (fun r => decide (r.1 = i))).map Prod.snd with
      | some A => M.value i A - priceOf A
      | none => 0

/-- The revenue-maximization constraints of `Market.pricing`: the revenue of
the given allocation is at least the revenue of every enumerated
allocation under the same prices. -/
def rmConstraints (M : Market) (alloc : List (ℕ × Finset ℕ))
    (priceOf : Finset ℕ → ℚ) : Prop :=
  ∀ A ∈ allAllocations M,
    (A.map (fun r => priceOf r.2)).sum ≤ (alloc.map (fun r => priceOf r.2)).sum

/-- A feasible point of the linear pricing LP (`pricing` with
`quadratic=False`): nonnegative per-good prices satisfying the no-envy and
revenue constraints. -/
def linFeasiblePoint (M : Market) (alloc : List (ℕ × Finset ℕ)) (p : ℕ → ℚ) : Prop :=
  (∀ g ∈ M.goods, 0 ≤ p g) ∧ umConstraints M alloc (bundleLinPrice p) ∧
    rmConstraints M alloc (bundleLinPrice p)

/-- The linear pricing LP reports `Optimal` iff it is feasible (the model
has no objective, and CBC reports `Optimal` exactly on feasible LPs). -/
def linearPricingFeasible (M : Market) (alloc : List (ℕ × Finset ℕ)) : Prop :=
  ∃ p, linFeasiblePoint M alloc p

/-- A feasible point of the non-linear pricing LP (`quadratic=True`):
additionally one nonnegative price per unordered pair of goods. -/
def quadFeasiblePoint (M : Market) (alloc : List (ℕ × Finset ℕ)) (p : ℕ → ℚ)
    (q : Finset ℕ → ℚ) : Prop :=
  (∀ g ∈ M.goods, 0 ≤ p g) ∧ (∀ s ∈ M.goods.toFinset.powersetCard 2, 0 ≤ q s) ∧
    umConstraints M alloc (bundleQuadPrice p q) ∧
    rmConstraints M alloc (bundleQuadPrice p q)

def quadPricingFeasible (M : Market) (alloc : List (ℕ × Finset ℕ)) : Prop :=
  ∃ p q, quadFeasiblePoint M alloc p q

/-- C7: whenever the linear pricing LP reports `Optimal` for an allocation,
the non-linear pricing LP for the same allocation also reports `Optimal`:
a feasible linear pricing extends to a feasible non-linear pricing by
setting every pair price to 0. -/
theorem c7_linear_to_quadratic (M : Market) (alloc : List (ℕ × Finset ℕ))
    (h : linearPricingFeasible M alloc) : quadPricingFeasible M alloc := by
  obtain ⟨p, hnn, hum, hrm⟩ := h
  refine ⟨p, fun _ => 0, hnn, fun s _ => le_refl 0, ?_, ?_⟩
  · have hpr : bundleQuadPrice p (fun _ => 0) = bundleLinPrice p := by
      funext B
      simp [bundleQuadPrice, bundleLinPrice]
    rwa [hpr]
  · have hpr : bundleQuadPrice p (fun _ => 0) = bundleLinPrice p := by
      funext B
      simp [bundleQuadPrice, bundleLinPrice]
    rwa [hpr]

/-- One-good, one-bidder market with a feasible linear CE pricing. -/
def mkC7 : Market :=
  { goods := [0]
    bidderIds := [0]
    base := fun _ => [{0}]
    value := fun _ B => if 0 ∈ B then 1 else 0 }

theorem mkC7_linear_feasible :
    linFeasiblePoint mkC7 [((0 : ℕ), ({0} : Finset ℕ))] (fun _ => 1) := by
  have hrb : allRangeBundles mkC7.goods.length = [∅, {0}] := by decide
  have hAA : allAllocations mkC7 = [[(0, ∅)], [(0, {0})]] := by decide
  refine ⟨fun g _ => by norm_num, ?_, ?_⟩
  · intro i hi B hB
    have hi0 : i = 0 := by simpa [mkC7] using hi
    subst hi0
    rw [hrb] at hB
    have hB' : B = ∅ ∨ B = {0} := by simpa using hB
    rcases hB' with rfl | rfl
    · simp [mkC7, bundleLinPrice, List.find?]
    · simp [mkC7, bundleLinPrice, List.find?]
  · intro A hA
    rw [hAA] at hA
    have hA' : A = [((0 : ℕ), (∅ : Finset ℕ))] ∨ A = [((0 : ℕ), ({0} : Finset ℕ))] := by
      simpa using hA
    rcases hA' with rfl | rfl
    · simp [bundleLinPrice]
    · simp [bundleLinPrice]

theorem c7_witness : quadPricingFeasible mkC7 [((0 : ℕ), ({0} : Finset ℕ))] :=
  c7_linear_to_quadratic mkC7 [((0 : ℕ), ({0} : Finset ℕ))]
    ⟨fun _ => 1, mkC7_linear_feasible⟩

end Pricing

section UnallocatedGoods

/-- The bundle of bidder `i` under an association-list allocation, or `∅`
when the bidder is unallocated. -/
def lookupBundle (alloc : List (ℕ × Finset ℕ)) (i : ℕ) : Finset ℕ :=
  ((alloc.find? (fun r => decide (r.1 = i))).map Prod.snd).getD ∅

theorem find?_of_keys_nodup :
    ∀ (l : List (ℕ × Finset ℕ)) (r : ℕ × Finset ℕ), (l.map Prod.fst).Nodup → r ∈ l →
      l.find? (fun s => decide (s.1 = r.1)) = some r := by
  intro l
  induction l with
  | nil => intro r _ hr; cases hr
  | cons a l ih =>
    intro r hnd hr
    rw [List.map_cons, List.nodup_cons] at hnd
    rcases List.mem_cons.mp hr with rfl | hr'
    · rw [List.find?_cons_of_pos]
      simp
    · have hane : a.1 ≠ r.1 := by
        intro he
        exact hnd.1 (he ▸ List.mem_map.mpr ⟨r, hr', rfl⟩)
      rw [List.find?_cons_of_neg]
      · exact ih r hnd.2 hr'
      · simpa using hane

theorem lookupBundle_of_mem (alloc : List (ℕ × Finset ℕ)) (r : ℕ × Finset ℕ)
    (hnd : (alloc.map Prod.fst).Nodup) (hr : r ∈ alloc) :
    lookupBundle alloc r.1 = r.2 := by
  rw [lookupBundle, find?_of_keys_nodup alloc r hnd hr]
  rfl

theorem lookupBundle_of_not_mem (alloc : List (ℕ × Finset ℕ)) (i : ℕ)
    (hi : i ∉ alloc.map Prod.fst) : lookupBundle alloc i = ∅ := by
  rw [lookupBundle]
  rcases hfind : alloc.find? (fun s => decide (s.1 = i)) with _ | s
  · rw [hfind]
    rfl
  · exfalso
    have hs := List.mem_of_find?_eq_some hfind
    have := List.find?_some hfind
    rw [decide_eq_true_eq] at this
    exact hi (this ▸ List.mem_map.mpr ⟨s, hs, rfl⟩)

theorem sum_map_add (l : List ℕ) (f h : ℕ → ℚ) :
    (l.map (fun i => f i + h i)).sum = (l.map f).sum + (l.map h).sum := by
  induction l with
  | nil => simp
  | cons x xs ih => simp [ih]; ring

theorem sum_map_indicator (l : List ℕ) (b : ℕ) (x : ℚ) (hnd : l.Nodup) (hb : b ∈ l) :
    (l.map (fun i => if i = b then x else 0)).sum = x := by
  induction l with
  | nil => cases hb
  | cons y ys ih =>
    rw [List.nodup_cons] at hnd
    rcases List.mem_cons.mp hb with hby | hb'
    · rw [List.map_cons, List.sum_cons, if_pos hby.symm]
      have hzero : (ys.map (fun i => if i = b then x else 0)).sum = 0 := by
        refine List.sum_eq_zero ?_
        intro z hz
        obtain ⟨i, hi, rfl⟩ := List.mem_map.mp hz
        rw [if_neg]
        intro he
        refine hnd.1 ?_
        rw [← hby, ← he]
        exact hi
      rw [hzero, add_zero]
    · rw [List.map_cons, List.sum_cons, if_neg, ih hnd.2 hb', zero_add]
      intro he
      refine hnd.1 ?_
      rw [he]
      exact hb'

theorem zip_map_self_sum (l : List ℕ) (f : ℕ → Finset ℕ) (F : Finset ℕ → ℚ) :
    ((l.zip (l.map f)).map (fun r => F r.2)).sum = (l.map (fun i => F (f i))).sum := by
  induction l with
  | nil => rfl
  | cons x xs ih => simp only [List.map_cons, List.zip_cons_cons, List.sum_cons, ih]

/-- C8: in the linear-pricing variant, any feasible point of the pricing LP
— in particular the prices returned on an `Optimal` solve — assigns price
exactly 0 to every good not included in any bidder's allocated bundle.
This is forced by the revenue constraint of the enumerated allocation that
additionally hands the free good to the first bidder, combined with price
nonnegativity. -/
theorem c8_unallocated_good_priced_zero (M : Market) (alloc : List (ℕ × Finset ℕ))
    (g : ℕ)
    (hbne : M.bidderIds ≠ [])
    (hidnd : M.bidderIds.Nodup)
    (hgnd : M.goods.Nodup)
    (hkeynd : (alloc.map Prod.fst).Nodup)
    (hkeysub : ∀ r ∈ alloc, r.1 ∈ M.bidderIds)
    (hbund : ∀ r ∈ alloc, r.2 ⊆ M.goods.toFinset)
    (hdisj : ∀ r ∈ alloc, ∀ s ∈ alloc, r.1 ≠ s.1 → r.2 ∩ s.2 = ∅)
    (hg : g ∈ M.goods)
    (hfree : ∀ r ∈ alloc, g ∉ r.2)
    (p : ℕ → ℚ) (hp : linFeasiblePoint M alloc p) :
    p g = 0 := by
  obtain ⟨b₀, ids', hids⟩ := List.exists_cons_of_ne_nil hbne
  set f : ℕ → Finset ℕ :=
    fun i => if i = b₀ then lookupBundle alloc i ∪ {g} else lookupBundle alloc i with hf
  have hlook_sub : ∀ i, lookupBundle alloc i ⊆ M.goods.toFinset := by
    intro i
    by_cases hkey : i ∈ alloc.map Prod.fst
    · obtain ⟨r, hr, rfl⟩ := List.mem_map.mp hkey
      rw [lookupBundle_of_mem alloc r hkeynd hr]
      exact hbund r hr
    · rw [lookupBundle_of_not_mem alloc i hkey]
      exact Finset.empty_subset _
  have hlook_free : ∀ i, g ∉ lookupBundle alloc i := by
    intro i
    by_cases hkey : i ∈ alloc.map Prod.fst
    · obtain ⟨r, hr, rfl⟩ := List.mem_map.mp hkey
      rw [lookupBundle_of_mem alloc r hkeynd hr]
      exact hfree r hr
    · rw [lookupBundle_of_not_mem alloc i hkey]
      exact Finset.not_mem_empty g
  have hlook_disj : ∀ i j, i ≠ j → lookupBundle alloc i ∩ lookupBundle alloc j = ∅ := by
    intro i j hij
    by_cases hkeyi : i ∈ alloc.map Prod.fst
    · by_cases hkeyj : j ∈ alloc.map Prod.fst
      · obtain ⟨r, hr, hri⟩ := List.mem_map.mp hkeyi
        obtain ⟨s, hs, hsj⟩ := List.mem_map.mp hkeyj
        rw [← hri, ← hsj, lookupBundle_of_mem alloc r hkeynd hr,
          lookupBundle_of_mem alloc s hkeynd hs]
        refine hdisj r hr s hs ?_
        rw [hri, hsj]
        exact hij
      · rw [lookupBundle_of_not_mem alloc j hkeyj, Finset.inter_empty]
    · rw [lookupBundle_of_not_mem alloc i hkeyi, Finset.empty_inter]
  have hf_sub : ∀ i, f i ⊆ M.goods.toFinset := by
    intro i
    simp only [hf]
    by_cases hib : i = b₀
    · rw [if_pos hib]
      refine Finset.union_subset (hlook_sub i) ?_
      intro x hx
      rw [Finset.mem_singleton] at hx
      subst hx
      exact List.mem_toFinset.mpr hg
    · rw [if_neg hib]
      exact hlook_sub i
  have hmem_f : ∀ k x, x ∈ f k → (x = g ∧ k = b₀) ∨ x ∈ lookupBundle alloc k := by
    intro k x hxk
    simp only [hf] at hxk
    by_cases hkb : k = b₀
    · rw [if_pos hkb] at hxk
      rcases Finset.mem_union.mp hxk with h | h
      · exact Or.inr h
      · exact Or.inl ⟨Finset.mem_singleton.mp h, hkb⟩
    · rw [if_neg hkb] at hxk
      exact Or.inr hxk
  have hf_disj : ∀ i j, i ≠ j → f i ∩ f j = ∅ := by
    intro i j hij
    ext x
    simp only [Finset.mem_inter, Finset.not_mem_empty, iff_false, not_and]
    intro hxi hxj
    rcases hmem_f i x hxi with ⟨rfl, rfl⟩ | hi
    · rcases hmem_f j x hxj with ⟨_, rfl⟩ | hj
      · exact hij rfl
      · exact hlook_free j hj
    · rcases hmem_f j x hxj with ⟨rfl, rfl⟩ | hj
      · exact hlook_free i hi
      · have hij2 := hlook_disj i j hij
        have hx : x ∈ lookupBundle alloc i ∩ lookupBundle alloc j :=
          Finset.mem_inter.mpr ⟨hi, hj⟩
        rw [hij2] at hx
        exact Finset.not_mem_empty x hx
  have hch : (M.bidderIds.map f).Pairwise (fun a b => a ∩ b = ∅) := by
    rw [List.pairwise_map]
    exact List.Pairwise.imp (fun hab => hf_disj _ _ hab) hidnd
  have hA'mem : ([] : List (ℕ × Finset ℕ)) ++ M.bidderIds.zip (M.bidderIds.map f)
      ∈ enumAllocsHelper M.bidderIds M.goods [] := by
    refine enumAllocsHelper_complete M.bidderIds M.goods [] (M.bidderIds.map f) hgnd
      (by simp) ?_ hch
    intro c hc
    obtain ⟨i, _, rfl⟩ := List.mem_map.mp hc
    exact hf_sub i
  rw [List.nil_append] at hA'mem
  have hrm := hp.2.2 _ hA'mem
  rw [zip_map_self_sum] at hrm
  have hpoint : ∀ i ∈ M.bidderIds, bundleLinPrice p (f i)
      = bundleLinPrice p (lookupBundle alloc i) + (if i = b₀ then p g else 0) := by
    intro i _
    simp only [hf]
    by_cases hib : i = b₀
    · rw [if_pos hib, if_pos hib, bundleLinPrice, bundleLinPrice,
        Finset.sum_union (Finset.disjoint_singleton_right.mpr (hlook_free i)),
        Finset.sum_singleton]
    · rw [if_neg hib, if_neg hib, add_zero]
  have hmapeq : (M.bidderIds.map (fun i => bundleLinPrice p (f i))).sum
      = (M.bidderIds.map (fun i => bundleLinPrice p (lookupBundle alloc i))).sum + p g := by
    rw [List.map_congr_left hpoint, sum_map_add]
    congr 1
    refine sum_map_indicator M.bidderIds b₀ (p g) hidnd ?_
    rw [hids]
    exact List.mem_cons_self b₀ ids'
  have hrev : (alloc.map (fun r => bundleLinPrice p r.2)).sum
      = (M.bidderIds.map (fun i => bundleLinPrice p (lookupBundle alloc i))).sum := by
    have h1 : alloc.map (fun r => bundleLinPrice p r.2)
        = (alloc.map Prod.fst).map (fun i => bundleLinPrice p (lookupBundle alloc i)) := by
      rw [List.map_map]
      refine List.map_congr_left ?_
      intro r hr
      show bundleLinPrice p r.2 = bundleLinPrice p (lookupBundle alloc r.1)
      rw [lookupBundle_of_mem alloc r hkeynd hr]
    rw [h1, ← List.sum_toFinset _ hidnd, ← List.sum_toFinset _ hkeynd]
    refine Finset.sum_subset ?_ ?_
    · intro i hi
      obtain ⟨r, hr, rfl⟩ := List.mem_map.mp (List.mem_toFinset.mp hi)
      exact List.mem_toFinset.mpr (hkeysub r hr)
    · intro i _ hinot
      have : lookupBundle alloc i = ∅ := by
        refine lookupBundle_of_not_mem alloc i ?_
        intro hmem
        exact hinot (List.mem_toFinset.mpr hmem)
      rw [this]
      simp [bundleLinPrice]
  rw [hmapeq, hrev] at hrm
  have hple : p g ≤ 0 := by linarith
  exact le_antisymm hple (hp.1 g hg)

/-- Two-good, one-bidder market in which good 1 is unallocated. -/
def mkC8 : Market :=
  { goods := [0, 1]
    bidderIds := [0]
    base := fun _ => [{0}]
    value := fun _ B => if 0 ∈ B then 1 else 0 }

theorem mkC8_linear_feasible :
    linFeasiblePoint mkC8 [((0 : ℕ), ({0} : Finset ℕ))]
      (fun x => if x = 0 then 1 else 0) := by
  have hrb : allRangeBundles mkC8.goods.length = [∅, {0}, {1}, {0, 1}] := by decide
  have hAA : allAllocations mkC8 = [[(0, ∅)], [(0, {0})], [(0, {1})], [(0, {0, 1})]] := by
    decide
  refine ⟨fun h _ => by positivity, ?_, ?_⟩
  · intro i hi B hB
    have hi0 : i = 0 := by simpa [mkC8] using hi
    subst hi0
    rw [hrb] at hB
    have hB' : B = ∅ ∨ B = {0} ∨ B = {1} ∨ B = {0, 1} := by simpa using hB
    have h01 : ({0, 1} : Finset ℕ).sum (fun x => if x = 0 then (1 : ℚ) else 0) = 1 := by
      simp
    rcases hB' with rfl | rfl | rfl | rfl
    · simp [mkC8, bundleLinPrice, List.find?]
    · simp [mkC8, bundleLinPrice, List.find?]
    · simp [mkC8, bundleLinPrice, List.find?]
    · simp [mkC8, bundleLinPrice, List.find?, h01]
  · intro A hA
    rw [hAA] at hA
    have h01 : ({0, 1} : Finset ℕ).sum (fun x => if x = 0 then (1 : ℚ) else 0) = 1 := by
      simp
    have hA' : A = [((0 : ℕ), (∅ : Finset ℕ))] ∨ A = [((0 : ℕ), ({0} : Finset ℕ))] ∨
        A = [((0 : ℕ), ({1} : Finset ℕ))] ∨ A = [((0 : ℕ), ({0, 1} : Finset ℕ))] := by
      simpa using hA
    rcases hA' with rfl | rfl | rfl | rfl
    · simp [bundleLinPrice]
    · simp [bundleLinPrice]
    · simp [bundleLinPrice]
    · simp [bundleLinPrice, h01]

theorem c8_witness : (fun x : ℕ => if x = 0 then (1 : ℚ) else 0) 1 = 0 :=
  c8_unallocated_good_priced_zero mkC8 [((0 : ℕ), ({0} : Finset ℕ))] 1
    (by decide) (by decide) (by decide) (by decide) (by decide) (by decide)
    (by decide) (by decide) (by decide)
    (fun x => if x = 0 then 1 else 0) mkC8_linear_feasible

end UnallocatedGoods
